import Mathlib

/-!
# Verification of the contact-manager record store and CSV persistence

Shallow embedding of `src/Rust/contact_manager/src/main.rs`.  Rust strings
are modelled as lists of characters (`Str`), the `HashMap<i64, Record>` as an
association list with the usual insert/erase/lookup semantics, and the file
written by `save_records` as the character sequence it would contain.
-/

/-- Rust `String` / `&str`, modelled as its character sequence. -/
abbrev Str := List Char

/-- `struct Record { id: i64, name: String, email: Option<String> }`. -/
structure Record where
  id : Int
  name : Str
  email : Option Str
deriving DecidableEq, Repr

/-- `struct Records { list: HashMap<i64, Record> }`, modelled as an
association list from key to record. -/
abbrev Records := List (Int × Record)

/-- Lookup in the map model (`HashMap::get` semantics). -/
def hmLookup (k : Int) : Records → Option Record
  | [] => none
  | (k', v) :: t => if k' = k then some v else hmLookup k t

/-- Remove the binding for `k`, if any (`HashMap::remove` semantics,
restricted to the resulting map). -/
def hmErase (k : Int) (m : Records) : Records :=
  m.filter (fun p => decide (p.1 ≠ k))

/-- `HashMap::insert`: bind `k` to `v`, replacing any previous binding. -/
def hmInsert (k : Int) (v : Record) (m : Records) : Records :=
  (k, v) :: hmErase k m

/-- Insertion step of a sort parameterised by a boolean comparison. -/
def insertLe (le : α → α → Bool) (x : α) : List α → List α
  | [] => [x]
  | y :: ys => if le x y then x :: y :: ys else y :: insertLe le x ys

/-- Insertion sort by a boolean comparison; models `sort` / `sort_by_key`. -/
def sortLe (le : α → α → Bool) : List α → List α
  | [] => []
  | x :: xs => insertLe le x (sortLe le xs)

/-- `Records::new()`. -/
def Records.new : Records := []

/-- `Records::add`: `self.list.insert(record.id, record)`. -/
def Records.add (rs : Records) (record : Record) : Records :=
  hmInsert record.id record rs

/-- `Records::into_vec`: drain the values and sort them by id. -/
def Records.into_vec (rs : Records) : List Record :=
  sortLe (fun a b => decide (a.id ≤ b.id)) (rs.map Prod.snd)

/-- Two's-complement reduction of an integer into the `i64` range,
`[-2^63, 2^63 - 1]`: the value a wrapping Rust `i64` operation yields. -/
def wrapI64 (n : Int) : Int :=
  (n + 2 ^ 63) % 2 ^ 64 - 2 ^ 63

/-- `Records::next_id`: sort the keys ascending, pop the last (the maximum),
return it plus one, or `1` for an empty store.  The `id + 1` is `i64`
arithmetic: at `id = 2^63 - 1` it overflows (panic in debug builds, wrap in
release builds); the wrapping behaviour is modelled here with `wrapI64`, so
either way the result at that id is not the mathematical `id + 1`. -/
def Records.next_id (rs : Records) : Int :=
  let ids := sortLe (fun a b => decide (a ≤ b)) (rs.map Prod.fst)
  match ids.getLast? with
  | some id => wrapI64 (id + 1)
  | none => 1

/-- `str::contains` on character lists: does `needle` occur as a contiguous
substring of the second argument? -/
def containsSub (needle : Str) : Str → Bool
  | [] => needle.isEmpty
  | c :: t => needle.isPrefixOf (c :: t) || containsSub needle t

/-- `str::to_lowercase`, character by character. -/
def strLower (s : Str) : Str := s.map Char.toLower

/-- `Records::search`: filter the values by case-insensitive substring match
of the query against the name. -/
def Records.search (rs : Records) (name : Str) : List Record :=
  (rs.map Prod.snd).filter
    (fun rec => containsSub (strLower name) (strLower rec.name))

/-- `Records::remove`: the removed record, if any, and the resulting store. -/
def Records.remove (rs : Records) (id : Int) : Option Record × Records :=
  (hmLookup id rs, hmErase id rs)

/-- `Records::edit`: insert `Record { id, name, email }` at key `id`. -/
def Records.edit (rs : Records) (id : Int) (name : Str) (email : Option Str) :
    Records :=
  hmInsert id { id := id, name := name, email := email } rs

/-- `enum ParseError` (the `ParseIntError` payload of `InvalidId` and is
dropped; it never influences control flow). -/
inductive ParseError where
  | InvalidId
  | EmptyRecord
  | MissingField (field : Str)
deriving DecidableEq, Repr

deriving instance DecidableEq for Except

/-- Rust `str::split(sep)`: split on every occurrence of the separator,
keeping empty pieces; the result is never empty. -/
def splitOnChar (sep : Char) : Str → List Str
  | [] => [[]]
  | c :: t =>
    if c = sep then [] :: splitOnChar sep t
    else
      match splitOnChar sep t with
      | [] => [[c]]
      | f :: r => (c :: f) :: r

/-- Numeric value of a decimal digit character. -/
def digitVal (c : Char) : Nat := c.toNat - 48

/-- Parse a non-empty all-digit string as a natural number
(the digit-sequence part of `i64::from_str_radix`). -/
def parseNatDigits (s : Str) : Option Nat :=
  if s = [] then none
  else if s.all Char.isDigit then
    some (s.foldl (fun a c => a * 10 + digitVal c) 0)
  else none

/-- `i64::from_str_radix(s, 10)`: optional sign, then decimal digits, with
the value required to fit in a signed 64-bit integer. -/
def parseI64 : Str → Option Int
  | [] => none
  | c :: rest =>
    if c = '+' then
      (parseNatDigits rest).bind
        (fun n => if n ≤ 2 ^ 63 - 1 then some (Int.ofNat n) else none)
    else if c = '-' then
      (parseNatDigits rest).bind
        (fun n => if n ≤ 2 ^ 63 then some (-(Int.ofNat n)) else none)
    else
      (parseNatDigits (c :: rest)).bind
        (fun n => if n ≤ 2 ^ 63 - 1 then some (Int.ofNat n) else none)

/-- `parse_record`: split the line on commas; field 0 must parse as an
integer id (`InvalidId` on failure, `EmptyRecord` if absent), field 1 must be
present and non-empty (`MissingField "name"` otherwise), field 2 is the
optional email with the empty string filtered to `None`. -/
def parse_record (record : Str) : Except ParseError Record :=
  let fields := splitOnChar ',' record
  match fields.get? 0 with
  | none => Except.error ParseError.EmptyRecord
  | some idStr =>
    match parseI64 idStr with
    | none => Except.error ParseError.InvalidId
    | some id =>
      match (fields.get? 1).filter (fun n => !n.isEmpty) with
      | none => Except.error (ParseError.MissingField ['n', 'a', 'm', 'e'])
      | some name =>
        Except.ok
          { id := id
            name := name
            email := (fields.get? 2).filter (fun e => !e.isEmpty) }

/-- Loop body of `parse_records` for one numbered line: skip empty lines,
add a successfully parsed record, and record a diagnostic (line number,
error, raw line) for a failure when `verbose` is set. -/
def parse_step (verbose : Bool)
    (acc : Records × List (Nat × ParseError × Str)) (p : Nat × Str) :
    Records × List (Nat × ParseError × Str) :=
  if p.2 ≠ [] then
    match parse_record p.2 with
    | Except.ok rec => (acc.1.add rec, acc.2)
    | Except.error e =>
      (acc.1, if verbose then acc.2 ++ [(p.1 + 1, e, p.2)] else acc.2)
  else acc

/-- `parse_records`: split the input on newlines and run `parse_step` over
the numbered lines.  The first component is the returned store; the second
models the printed output. -/
def parse_records (records : Str) (verbose : Bool) :
    Records × List (Nat × ParseError × Str) :=
  (splitOnChar '\n' records).enum.foldl (parse_step verbose)
    (Records.new, [])

/-- Decimal digit character for a value below ten. -/
def digitChar (d : Nat) : Char := Char.ofNat (48 + d)

/-- Most-significant-first decimal digits of a positive number, with explicit
fuel (`fuel ≥ n` suffices). -/
def natToStrAux : Nat → Nat → Str
  | 0, _ => []
  | _ + 1, 0 => []
  | fuel + 1, n + 1 =>
    natToStrAux fuel ((n + 1) / 10) ++ [digitChar ((n + 1) % 10)]

/-- Decimal rendering of a natural number (Rust `Display` for unsigned). -/
def natToStr (n : Nat) : Str :=
  if n = 0 then ['0'] else natToStrAux n n

/-- Decimal rendering of an `i64` (Rust `Display`): minus sign for negative
values, then the digits of the absolute value. -/
def intToStr (i : Int) : Str :=
  if i < 0 then '-' :: natToStr i.natAbs else natToStr i.toNat

/-- The comma-joined fields of the line written by `save_records` for a
record: `id`, `name`, and the email with absent email as `""`. -/
def record_body (r : Record) : Str :=
  intToStr r.id ++ (',' :: (r.name ++ (',' :: r.email.getD [])))

/-- One line written by `save_records` for a record:
`format!("{},{},{}\n", id, name, email)` with absent email as `""`. -/
def record_line (r : Record) : Str :=
  record_body r ++ ['\n']

/-- The header text `id,name,email` written first by `save_records`. -/
def headerBody : Str :=
  ['i', 'd', ',', 'n', 'a', 'm', 'e', ',', 'e', 'm', 'a', 'i', 'l']

/-- The header line `id,name,email\n` written first by `save_records`. -/
def headerLine : Str :=
  headerBody ++ ['\n']

/-- `save_records`, modelled as the text written to the file: the header,
then one line per record in `into_vec` order. -/
def save_records (records : Records) : Str :=
  headerLine ++ (records.into_vec.map record_line).flatten

/-! ## Well-formed stores and benign records -/

/-- Constraints on the optional email under which its saved rendering parses
back unchanged: non-empty, and free of commas and newlines. -/
def emailOk : Option Str → Prop
  | none => True
  | some e => e ≠ [] ∧ ',' ∉ e ∧ '\n' ∉ e

instance (o : Option Str) : Decidable (emailOk o) :=
  match o with
  | none => isTrue trivial
  | some e =>
    inferInstanceAs (Decidable (e ≠ [] ∧ ',' ∉ e ∧ '\n' ∉ e))

/-- A record whose saved line parses back unchanged: non-empty name, no
commas or newlines in name and email, and an id within the `i64` range
(guaranteed by the Rust types). -/
def goodRecord (r : Record) : Prop :=
  r.name ≠ [] ∧ ',' ∉ r.name ∧ '\n' ∉ r.name ∧ emailOk r.email ∧
    -(2 ^ 63) ≤ r.id ∧ r.id ≤ 2 ^ 63 - 1

/-- The invariants of the Rust `HashMap<i64, Record>` store: distinct keys
and each key mapping to a record carrying that id. -/
def Records.wf (rs : Records) : Prop :=
  (rs.map Prod.fst).Nodup ∧ ∀ p ∈ rs, p.2.id = p.1

instance (r : Record) : Decidable (goodRecord r) :=
  inferInstanceAs (Decidable (_ ∧ _ ∧ _ ∧ _ ∧ _ ∧ _))

instance (rs : Records) : Decidable rs.wf :=
  inferInstanceAs (Decidable (_ ∧ _))

/-- The records of the successfully parsed non-empty lines of the input, in
input order (the records `parse_records` adds to the store). -/
def successfulRecords (s : Str) : List Record :=
  (splitOnChar '\n' s).filterMap
    (fun l => if l = [] then none else (parse_record l).toOption)

/-- The stores reachable from the empty store by the program's operations:
`add`, `edit`, `remove`, and loading via `parse_records`. -/
inductive Reachable : Records → Prop where
  | new : Reachable Records.new
  | add (rs : Records) (r : Record) : Reachable rs → Reachable (rs.add r)
  | edit (rs : Records) (id : Int) (name : Str) (email : Option Str) :
      Reachable rs → Reachable (rs.edit id name email)
  | remove (rs : Records) (id : Int) : Reachable rs →
      Reachable (rs.remove id).2
  | parse (s : Str) (v : Bool) : Reachable (parse_records s v).1

/-- A store meeting the hypotheses of claim C1 as literally stated (name
non-empty, no commas anywhere), whose name nevertheless contains a
newline. -/
def C1badStore : Records :=
  [(1, { id := 1, name := ['A', '\n', 'B'], email := none })]

/-- A concrete well-formed two-record store for the C1 witness. -/
def C1goodStore : Records :=
  [(2, { id := 2, name := "Bob".toList, email := none }),
   (1, { id := 1, name := "Alice".toList, email := some ("a@x".toList) })]

/-! ## Map lemmas -/

lemma hmLookup_hmErase (k j : Int) (m : Records) :
    hmLookup k (hmErase j m) = if j = k then none else hmLookup k m := by
  induction m with
  | nil => simp [hmErase, hmLookup]
  | cons p t ih =>
    by_cases hpj : p.1 = j
    · by_cases hjk : j = k <;>
        simp_all [hmErase, hmLookup, List.filter_cons]
    · by_cases hpk : p.1 = k
      · subst hpk
        simp_all [hmErase, hmLookup, List.filter_cons]
        omega
      · simp_all [hmErase, hmLookup, List.filter_cons]

lemma hmLookup_hmInsert (k j : Int) (v : Record) (m : Records) :
    hmLookup k (hmInsert j v m) = if j = k then some v else hmLookup k m := by
  by_cases hjk : j = k <;> simp [hmInsert, hmLookup, hmLookup_hmErase, hjk]

lemma mem_hmErase {p : Int × Record} {j : Int} {m : Records}
    (h : p ∈ hmErase j m) : p ∈ m := by
  exact List.mem_of_mem_filter h

/-! ## Sorting lemmas -/

lemma insertLe_perm (le : α → α → Bool) (x : α) (l : List α) :
    List.Perm (insertLe le x l) (x :: l) := by
  induction l with
  | nil => exact List.Perm.refl _
  | cons y ys ih =>
    simp only [insertLe]
    split
    · exact List.Perm.refl _
    · exact (ih.cons y).trans (List.Perm.swap x y ys)

lemma sortLe_perm (le : α → α → Bool) (l : List α) :
    List.Perm (sortLe le l) l := by
  induction l with
  | nil => exact List.Perm.refl _
  | cons x xs ih =>
    exact (insertLe_perm le x (sortLe le xs)).trans (ih.cons x)

lemma insertLe_sorted (le : α → α → Bool)
    (htot : ∀ a b, le a b = true ∨ le b a = true)
    (htrans : ∀ a b c, le a b = true → le b c = true → le a c = true)
    (x : α) (l : List α) (h : l.Pairwise (fun a b => le a b = true)) :
    (insertLe le x l).Pairwise (fun a b => le a b = true) := by
  induction l with
  | nil => simp [insertLe]
  | cons y ys ih =>
    rcases List.pairwise_cons.mp h with ⟨hy, hys⟩
    simp only [insertLe]
    split
    · rename_i hxy
      refine List.pairwise_cons.mpr ⟨?_, h⟩
      intro z hz
      rcases List.mem_cons.mp hz with rfl | hz
      · exact hxy
      · exact htrans _ _ _ hxy (hy z hz)
    · rename_i hxy
      have hyx : le y x = true := by
        rcases htot x y with hx | hx
        · exact absurd hx hxy
        · exact hx
      refine List.pairwise_cons.mpr ⟨?_, ih hys⟩
      intro z hz
      have hz' := (insertLe_perm le x ys).mem_iff.mp hz
      rcases List.mem_cons.mp hz' with rfl | hz'
      · exact hyx
      · exact hy z hz'

lemma sortLe_sorted (le : α → α → Bool)
    (htot : ∀ a b, le a b = true ∨ le b a = true)
    (htrans : ∀ a b c, le a b = true → le b c = true → le a c = true)
    (l : List α) :
    (sortLe le l).Pairwise (fun a b => le a b = true) := by
  induction l with
  | nil => simp [sortLe]
  | cons x xs ih => exact insertLe_sorted le htot htrans x (sortLe le xs) ih

lemma pairwise_getLast {R : α → α → Prop} :
    ∀ (l : List α), l.Pairwise R → ∀ m, l.getLast? = some m →
      ∀ x ∈ l, R x m ∨ x = m
  | [], _, m, hm => by simp at hm
  | [a], _, m, hm => by
    intro x hx
    simp only [List.getLast?_singleton, Option.some.injEq] at hm
    simp only [List.mem_singleton] at hx
    right
    rw [hx, hm]
  | a :: b :: t, h, m, hm => by
    intro x hx
    rcases List.pairwise_cons.mp h with ⟨ha,ht⟩
    have hm' : (b :: t).getLast? = some m := by
      simpa [List.getLast?_cons_cons] using hm
    rcases List.mem_cons.mp hx with rfl | hx
    · left
      obtain ⟨hne, rfl⟩ :=
        List.mem_getLast?_eq_getLast (Option.mem_def.mpr hm')
      exact ha _ (List.getLast_mem hne)
    · exact pairwise_getLast (b :: t) ht m hm' x hx

/-! ## Substring search -/

lemma containsSub_iff (n : Str) (h : Str) :
    containsSub n h = true ↔ n <:+: h := by
  induction h with
  | nil =>
    simp only [containsSub, List.isEmpty_iff, List.infix_nil]
  | cons c t ih =>
    simp only [containsSub, Bool.or_eq_true, List.isPrefixOf_iff_prefix, ih,
      List.infix_cons_iff]

/-! ## Splitting lemmas -/

lemma splitOnChar_shape (sep : Char) (s : Str) :
    ∃ f r, splitOnChar sep s = f :: r := by
  induction s with
  | nil => exact ⟨[], [], rfl⟩
  | cons c t ih =>
    obtain ⟨f, r, hfr⟩ := ih
    by_cases hc : c = sep
    · exact ⟨[], splitOnChar sep t, by simp [splitOnChar, hc]⟩
    · exact ⟨c :: f, r, by simp [splitOnChar, hc, hfr]⟩

lemma splitOnChar_of_not_mem {sep : Char} {a : Str} (h : sep ∉ a) :
    splitOnChar sep a = [a] := by
  induction a with
  | nil => rfl
  | cons c t ih =>
    have hc : ¬c = sep := by
      intro hc
      exact h (by simp [hc])
    have ht := ih (fun hm => h (List.mem_cons_of_mem c hm))
    simp [splitOnChar, hc, ht]

lemma splitOnChar_append {sep : Char} {a : Str} (b : Str) (h : sep ∉ a) :
    splitOnChar sep (a ++ sep :: b) = a :: splitOnChar sep b := by
  induction a with
  | nil =>
    simp [splitOnChar]
  | cons c t ih =>
    have hc : ¬c = sep := by
      intro hc
      exact h (by simp [hc])
    have ht := ih (fun hm => h (List.mem_cons_of_mem c hm))
    simp [splitOnChar, hc, ht]

/-! ## Decimal numerals -/

lemma natToStrAux_zero (fuel : Nat) : natToStrAux fuel 0 = [] := by
  cases fuel <;> rfl

lemma digitChar_isDigit {d : Nat} (h : d < 10) :
    (digitChar d).isDigit = true := by
  interval_cases d <;> decide

lemma digitVal_digitChar {d : Nat} (h : d < 10) : digitVal (digitChar d) = d := by
  interval_cases d <;> decide

lemma natToStrAux_digits :
    ∀ (fuel n : Nat), ∀ c ∈ natToStrAux fuel n, c.isDigit = true
  | 0, _ => by simp [natToStrAux]
  | fuel + 1, 0 => by simp [natToStrAux]
  | fuel + 1, n + 1 => by
    intro c hc
    simp only [natToStrAux, List.mem_append, List.mem_singleton] at hc
    rcases hc with hc | rfl
    · exact natToStrAux_digits fuel ((n + 1) / 10) c hc
    · exact digitChar_isDigit (Nat.mod_lt _ (by omega))

lemma natToStrAux_ne_nil {fuel n : Nat} (h1 : 0 < n) (h2 : n ≤ fuel) :
    natToStrAux fuel n ≠ [] := by
  cases fuel with
  | zero => omega
  | succ f =>
    cases n with
    | zero => omega
    | succ m => simp [natToStrAux]

lemma natToStrAux_foldl :
    ∀ (fuel n : Nat), 0 < n → n ≤ fuel → ∀ a : Nat,
      (natToStrAux fuel n).foldl (fun a c => a * 10 + digitVal c) a =
        a * 10 ^ (natToStrAux fuel n).length + n
  | 0, n, h1, h2, _ => by omega
  | fuel + 1, 0, h1, _, _ => by omega
  | fuel + 1, n + 1, _, h2, a => by
    simp only [natToStrAux, List.foldl_append, List.foldl_cons, List.foldl_nil,
      List.length_append, List.length_singleton]
    have hmod : (n + 1) % 10 < 10 := Nat.mod_lt _ (by omega)
    rw [digitVal_digitChar hmod]
    by_cases hq : (n + 1) / 10 = 0
    · rw [hq, natToStrAux_zero]
      simp only [List.foldl_nil, List.length_nil]
      have : (n + 1) % 10 = n + 1 := Nat.mod_eq_of_lt (by omega)
      simp [this]
    · have hqlt : (n + 1) / 10 ≤ fuel := by
        have := Nat.div_lt_self (Nat.succ_pos n) (by omega : 1 < 10)
        omega
      rw [natToStrAux_foldl fuel ((n + 1) / 10) (Nat.pos_of_ne_zero hq) hqlt a]
      have hdm := Nat.div_add_mod (n + 1) 10
      rw [pow_succ]
      ring_nf
      omega

lemma parseNatDigits_natToStr (n : Nat) : parseNatDigits (natToStr n) = some n := by
  by_cases h : n = 0
  · subst h
    decide
  · have h1 : 0 < n := Nat.pos_of_ne_zero h
    have hne := natToStrAux_ne_nil h1 (le_refl n)
    unfold natToStr parseNatDigits
    rw [if_neg h, if_neg hne, if_pos]
    · rw [natToStrAux_foldl n n h1 (le_refl n) 0]
      simp
    · exact List.all_eq_true.mpr (fun c hc => natToStrAux_digits n n c hc)

lemma natToStr_ne_nil (n : Nat) : natToStr n ≠ [] := by
  by_cases h : n = 0
  · subst h
    decide
  · unfold natToStr
    rw [if_neg h]
    exact natToStrAux_ne_nil (Nat.pos_of_ne_zero h) (le_refl n)

lemma natToStr_digits {n : Nat} {c : Char} (hc : c ∈ natToStr n) :
    c.isDigit = true := by
  by_cases h : n = 0
  · subst h
    have h0 : natToStr 0 = ['0'] := by decide
    rw [h0, List.mem_singleton] at hc
    subst hc
    decide
  · unfold natToStr at hc
    rw [if_neg h] at hc
    exact natToStrAux_digits n n c hc

lemma intToStr_chars {i : Int} {c : Char} (hc : c ∈ intToStr i) :
    c = '-' ∨ c.isDigit = true := by
  unfold intToStr at hc
  by_cases h : i < 0
  · rw [if_pos h] at hc
    rcases List.mem_cons.mp hc with rfl | hc
    · exact Or.inl rfl
    · exact Or.inr (natToStr_digits hc)
  · rw [if_neg h] at hc
    exact Or.inr (natToStr_digits hc)

lemma parseI64_intToStr {i : Int} (h1 : -(2 ^ 63) ≤ i) (h2 : i ≤ 2 ^ 63 - 1) :
    parseI64 (intToStr i) = some i := by
  by_cases hneg : i < 0
  · unfold intToStr
    rw [if_pos hneg]
    simp only [parseI64]
    rw [if_neg (by decide : ¬('-' : Char) = '+'), if_pos trivial,
      parseNatDigits_natToStr]
    simp only [Option.some_bind]
    rw [if_pos (by omega)]
    congr 1
    simp only [Int.ofNat_eq_natCast]
    omega
  · unfold intToStr
    rw [if_neg hneg]
    obtain ⟨c, rest, hcr⟩ : ∃ c rest, natToStr i.toNat = c :: rest := by
      cases hn : natToStr i.toNat with
      | nil => exact absurd hn (natToStr_ne_nil _)
      | cons c rest => exact ⟨c, rest, rfl⟩
    have hdig : c.isDigit = true := natToStr_digits (by rw [hcr]; simp)
    have hplus : ¬c = '+' := by
      intro rfl_h
      rw [rfl_h] at hdig
      exact absurd hdig (by decide)
    have hminus : ¬c = '-' := by
      intro rfl_h
      rw [rfl_h] at hdig
      exact absurd hdig (by decide)
    rw [hcr]
    simp only [parseI64]
    rw [if_neg hplus, if_neg hminus, ← hcr, parseNatDigits_natToStr]
    simp only [Option.some_bind]
    rw [if_pos (by omega)]
    congr 1
    simp only [Int.ofNat_eq_natCast]
    omega

lemma not_mem_intToStr {c : Char} (hdash : c ≠ '-') (hdig : c.isDigit = false)
    (i : Int) : c ∉ intToStr i := by
  intro hm
  rcases intToStr_chars hm with h | h
  · exact hdash h
  · rw [hdig] at h
    cases h

lemma emailOk_getD {o : Option Str} (h : emailOk o) :
    ',' ∉ o.getD [] ∧ '\n' ∉ o.getD [] := by
  cases o with
  | none => simp
  | some e => exact ⟨h.2.1, h.2.2⟩

lemma newline_not_mem_body {r : Record} (h : goodRecord r) :
    '\n' ∉ record_body r := by
  obtain ⟨hn1, hn2, hn3, he, _, _⟩ := h
  unfold record_body
  intro hm
  simp only [List.mem_append, List.mem_cons] at hm
  rcases hm with h1 | h1 | h1 | h1 | h1
  · exact @not_mem_intToStr '\n' (by decide) (by decide) r.id h1
  · exact absurd h1 (by decide)
  · exact hn3 h1
  · exact absurd h1 (by decide)
  · exact (emailOk_getD he).2 h1

lemma splitOnChar_body {r : Record} (h : goodRecord r) :
    splitOnChar ',' (record_body r) =
      [intToStr r.id, r.name, r.email.getD []] := by
  obtain ⟨hn1, hn2, hn3, he, _, _⟩ := h
  unfold record_body
  rw [splitOnChar_append _ (not_mem_intToStr (by decide) (by decide) r.id),
    splitOnChar_append _ hn2, splitOnChar_of_not_mem (emailOk_getD he).1]

lemma parse_record_body {r : Record} (h : goodRecord r) :
    parse_record (record_body r) = Except.ok r := by
  obtain ⟨hn1, hn2, hn3, he, hlo, hhi⟩ := h
  simp only [parse_record, splitOnChar_body ⟨hn1, hn2, hn3, he, hlo, hhi⟩]
  simp only [List.get?_cons_zero, List.get?_cons_succ]
  rw [parseI64_intToStr hlo hhi]
  have hname : Option.filter (fun n => !n.isEmpty) (some r.name) =
      some r.name := by
    simp [Option.filter, List.isEmpty_iff, hn1]
  rw [hname]
  have hemail : Option.filter (fun e => !e.isEmpty) (some (r.email.getD []))
      = r.email := by
    cases ho : r.email with
    | none => simp [Option.filter]
    | some e =>
      rw [ho] at he
      simp [Option.filter, List.isEmpty_iff, he.1]
  rw [hemail]

lemma record_body_ne_nil (r : Record) : record_body r ≠ [] := by
  unfold record_body
  intro hm
  exact natToStr_ne_nil r.id.toNat (by
    by_cases hneg : r.id < 0 <;>
      simp_all [intToStr, List.append_eq_nil])

lemma splitOnChar_flatten_lines (l : List Record)
    (h : ∀ r ∈ l, '\n' ∉ record_body r) :
    splitOnChar '\n' (l.map record_line).flatten =
      l.map record_body ++ [[]] := by
  induction l with
  | nil => simp [splitOnChar]
  | cons r t ih =>
    simp only [List.map_cons, List.flatten_cons]
    rw [record_line, List.append_assoc, List.singleton_append,
      splitOnChar_append _ (h r (List.mem_cons_self r t)),
      ih (fun x hx => h x (List.mem_cons_of_mem r hx))]
    simp

lemma splitOnChar_save (rs : Records)
    (h : ∀ r ∈ rs.into_vec, '\n' ∉ record_body r) :
    splitOnChar '\n' (save_records rs) =
      headerBody :: (rs.into_vec.map record_body ++ [[]]) := by
  unfold save_records headerLine
  rw [List.append_assoc, List.singleton_append,
    splitOnChar_append _ (by decide), splitOnChar_flatten_lines rs.into_vec h]

/-! ## The parse loop as a fold over the successfully parsed lines -/

lemma parse_step_fold_fst (L : List Str) :
    ∀ (i : Nat) (acc : Records × List (Nat × ParseError × Str)) (v : Bool),
      ((L.enumFrom i).foldl (parse_step v) acc).1 =
        List.foldl Records.add acc.1
          (L.filterMap
            (fun l => if l = [] then none else (parse_record l).toOption)) := by
  induction L with
  | nil => intro i acc v; simp
  | cons x t ih =>
    intro i acc v
    rw [List.enumFrom_cons, List.foldl_cons, List.filterMap_cons]
    by_cases hx : x = []
    · rw [if_pos hx]
      have hstep : parse_step v acc (i, x) = acc := by
        simp [parse_step, hx]
      rw [hstep, ih]
    · rw [if_neg hx]
      cases hp : parse_record x with
      | ok rec =>
        have hstep : parse_step v acc (i, x) = (acc.1.add rec, acc.2) := by
          simp [parse_step, hx, hp]
        rw [hstep, ih]
        simp [Except.toOption]
      | error e =>
        have hstep : parse_step v acc (i, x) =
            (acc.1, if v then acc.2 ++ [(i + 1, e, x)] else acc.2) := by
          simp [parse_step, hx, hp]
        rw [hstep, ih]
        simp [Except.toOption]

lemma parse_records_fst (s : Str) (v : Bool) :
    (parse_records s v).1 =
      List.foldl Records.add Records.new (successfulRecords s) := by
  unfold parse_records successfulRecords
  have henum : (splitOnChar '\n' s).enum = (splitOnChar '\n' s).enumFrom 0 :=
    rfl
  rw [henum, parse_step_fold_fst]

/-! ## Lookup after a fold of adds -/

lemma find_none_of_ids {l : List Record} {k : Int}
    (h : ∀ r ∈ l, r.id ≠ k) :
    l.find? (fun r => decide (r.id = k)) = none :=
  List.find?_eq_none.mpr (fun r hr => by simp [h r hr])

lemma hmLookup_foldl_add (l : List Record) :
    ∀ (r0 : Records) (k : Int), (l.map Record.id).Nodup →
      hmLookup k (List.foldl Records.add r0 l) =
        (l.find? (fun r => decide (r.id = k))).elim (hmLookup k r0) some := by
  induction l with
  | nil => intro r0 k _; simp
  | cons x t ih =>
    intro r0 k hnd
    rw [List.map_cons, List.nodup_cons] at hnd
    rw [List.foldl_cons, ih (Records.add r0 x) k hnd.2]
    by_cases hxk : x.id = k
    · have htail : t.find? (fun r => decide (r.id = k)) = none := by
        refine find_none_of_ids (fun r hr hrk => hnd.1 ?_)
        exact List.mem_map.mpr ⟨r, hr, hrk.trans hxk.symm⟩
      rw [htail, List.find?_cons_of_pos _ (by simp [hxk])]
      simp only [Option.elim_none, Option.elim_some]
      rw [Records.add, hmLookup_hmInsert, if_pos hxk]
    · have hskip : hmLookup k (Records.add r0 x) = hmLookup k r0 := by
        rw [Records.add, hmLookup_hmInsert, if_neg hxk]
      rw [List.find?_cons_of_neg _ (by simp [hxk]), hskip]

lemma find_eq_some_iff {l : List Record} {k : Int} {r : Record}
    (hnd : (l.map Record.id).Nodup) :
    l.find? (fun x => decide (x.id = k)) = some r ↔ r ∈ l ∧ r.id = k := by
  constructor
  · intro h
    refine ⟨List.mem_of_find?_eq_some h, ?_⟩
    have := List.find?_some h
    simpa using this
  · rintro ⟨hmem, hrk⟩
    induction l with
    | nil => cases hmem
    | cons x t ih =>
      rw [List.map_cons, List.nodup_cons] at hnd
      rcases List.mem_cons.mp hmem with rfl | hmem'
      · rw [List.find?_cons_of_pos _ (by simp [hrk])]
      · have hxk : x.id ≠ k := by
          intro hxk
          refine hnd.1 ?_
          rw [hxk, ← hrk]
          exact List.mem_map_of_mem Record.id hmem'
        rw [List.find?_cons_of_neg _ (by simp [hxk])]
        exact ih hnd.2 hmem'

lemma hmLookup_eq_some_iff {rs : Records} {k : Int} {r : Record}
    (hnd : (rs.map Prod.fst).Nodup) :
    hmLookup k rs = some r ↔ (k, r) ∈ rs := by
  induction rs with
  | nil => simp [hmLookup]
  | cons p t ih =>
    rw [List.map_cons, List.nodup_cons] at hnd
    obtain ⟨k', v⟩ := p
    by_cases hk : k' = k
    · subst hk
      simp only [hmLookup, if_pos rfl, List.mem_cons]
      constructor
      · rintro h
        exact Or.inl (by simp [Option.some_inj.mp h])
      · rintro (h | h)
        · simp [Prod.ext_iff] at h
          simp [h]
        · exact absurd (List.mem_map_of_mem Prod.fst h) (by simpa using hnd.1)
    · simp only [hmLookup, if_neg hk, List.mem_cons]
      rw [ih hnd.2]
      constructor
      · exact fun h => Or.inr h
      · rintro (h | h)
        · exact absurd (congrArg Prod.fst h.symm) hk
        · exact h

lemma successfulRecords_save (rs : Records)
    (hgood : ∀ r ∈ rs.into_vec, goodRecord r) :
    successfulRecords (save_records rs) = rs.into_vec := by
  unfold successfulRecords
  rw [splitOnChar_save rs (fun r hr => newline_not_mem_body (hgood r hr))]
  have hhdr : (fun l => if l = [] then none else (parse_record l).toOption)
      headerBody = (none : Option Record) := by decide
  simp only [List.filterMap_cons, hhdr, List.filterMap_append]
  simp only [if_true, List.filterMap_nil, List.append_nil,
    List.filterMap_map]
  have hbody : ∀ r ∈ rs.into_vec,
      ((fun l => if l = [] then none else (parse_record l).toOption) ∘
        record_body) r = some r := by
    intro r hr
    simp only [Function.comp_apply, if_neg (record_body_ne_nil r),
      parse_record_body (hgood r hr), Except.toOption]
  rw [List.filterMap_congr hbody, List.filterMap_some]

lemma roundtrip_lookup (rs : Records) (hwf : rs.wf)
    (hgood : ∀ p ∈ rs, goodRecord p.2) (v : Bool) (k : Int) :
    hmLookup k (parse_records (save_records rs) v).1 = hmLookup k rs := by
  obtain ⟨hnd, hco⟩ := hwf
  have hgood' : ∀ r ∈ rs.into_vec, goodRecord r := by
    intro r hr
    have hr' : r ∈ rs.map Prod.snd :=
      (sortLe_perm _ _).mem_iff.mp hr
    obtain ⟨p, hp, rfl⟩ := List.mem_map.mp hr'
    exact hgood p hp
  have hmem_iff : ∀ r : Record, r ∈ rs.into_vec ↔ r ∈ rs.map Prod.snd :=
    fun r => (sortLe_perm _ _).mem_iff
  have hids : (rs.into_vec.map Record.id).Nodup := by
    have hperm := ((sortLe_perm (fun a b => decide (a.id ≤ b.id))
      (rs.map Prod.snd))).map Record.id
    have heq : (rs.map Prod.snd).map Record.id = rs.map Prod.fst := by
      rw [List.map_map]
      exact List.map_congr_left (fun p hp => hco p hp)
    rw [Records.into_vec]
    exact hperm.nodup_iff.mpr (heq ▸ hnd)
  rw [parse_records_fst, successfulRecords_save rs hgood',
    hmLookup_foldl_add _ _ _ hids]
  cases hrs : hmLookup k rs with
  | none =>
    have hfind : rs.into_vec.find? (fun r => decide (r.id = k)) = none := by
      refine find_none_of_ids (fun r hr hrk => ?_)
      obtain ⟨p, hp, rfl⟩ := List.mem_map.mp ((hmem_iff r).mp hr)
      have hpk : p.1 = k := (hco p hp).symm.trans hrk
      have : hmLookup k rs = some p.2 := by
        refine (hmLookup_eq_some_iff hnd).mpr ?_
        rw [← hpk]
        exact hp
      rw [this] at hrs
      cases hrs
    rw [hfind]
    simp [Records.new, hmLookup]
  | some r =>
    have hmem : (k, r) ∈ rs := (hmLookup_eq_some_iff hnd).mp hrs
    have hrv : r ∈ rs.into_vec :=
      (hmem_iff r).mpr (List.mem_map.mpr ⟨(k, r), hmem, rfl⟩)
    have hfind := (find_eq_some_iff hids).mpr ⟨hrv, hco (k, r) hmem⟩
    rw [hfind]
    simp

/-! ## Claims -/

/-- Claim C2: `parse_record` on `"3,Alice,alice@x.com"` returns the record
with id 3, name `Alice`, email `Some "alice@x.com"`; on `"x,Bob,"` it
returns an `InvalidId` error; and whenever the third comma-separated field
of a line is the empty string, a successfully parsed record has email
`None`. -/
theorem C2_parse_record_cases :
    parse_record ("3,Alice,alice@x.com".toList) =
      Except.ok { id := 3, name := "Alice".toList,
                  email := some ("alice@x.com".toList) } ∧
    parse_record ("x,Bob,".toList) = Except.error ParseError.InvalidId ∧
    ∀ (line : Str) (r : Record),
      (splitOnChar ',' line).get? 2 = some [] →
      parse_record line = Except.ok r → r.email = none := by
  refine ⟨by decide, by decide, ?_⟩
  intro line r h2 hok
  simp only [parse_record] at hok
  rw [h2] at hok
  split at hok
  · cases hok
  · split at hok
    · cases hok
    · split at hok
      · cases hok
      · cases hok
        simp [Option.filter]

/-- Witness for C2 at the concrete line `"1,Bob,"`, whose third field is
empty and which parses with email `None`. -/
theorem C2_witness :
    (splitOnChar ',' ("1,Bob,".toList)).get? 2 = some [] ∧
    parse_record ("1,Bob,".toList) =
      Except.ok { id := 1, name := "Bob".toList, email := none } ∧
    ({ id := 1, name := "Bob".toList, email := none } : Record).email =
      none :=
  ⟨by decide, by decide,
    C2_parse_record_cases.2.2 ("1,Bob,".toList)
      { id := 1, name := "Bob".toList, email := none } (by decide)
      (by decide)⟩

/-- Counterexample to claim C3: on `",Bob,"` the id field is blank, yet
`parse_record` returns `InvalidId`, not the `EmptyRecord` the claim's
taxonomy requires for a blank id field. -/
theorem C3_counterexample :
    parse_record (",Bob,".toList) = Except.error ParseError.InvalidId ∧
    parse_record (",Bob,".toList) ≠ Except.error ParseError.EmptyRecord := by
  decide

/-- Claim C3, amended: a first field that does not parse as an integer
(including a blank first field) yields `InvalidId`; `EmptyRecord` is never
returned, because splitting always produces at least one field; a missing
or blank name field with a well-formed id yields `MissingField "name"`. -/
theorem C3_error_taxonomy :
    (∀ (line : Str) (f0 : Str), (splitOnChar ',' line).get? 0 = some f0 →
      parseI64 f0 = none →
      parse_record line = Except.error ParseError.InvalidId) ∧
    (∀ line : Str,
      parse_record line ≠ Except.error ParseError.EmptyRecord) ∧
    (∀ (line : Str) (f0 : Str) (id : Int),
      (splitOnChar ',' line).get? 0 = some f0 → parseI64 f0 = some id →
      ((splitOnChar ',' line).get? 1 = none ∨
        (splitOnChar ',' line).get? 1 = some []) →
      parse_record line =
        Except.error (ParseError.MissingField ("name".toList))) := by
  refine ⟨?_, ?_, ?_⟩
  · intro line f0 h0 hbad
    simp only [parse_record, h0, hbad]
  · intro line h
    obtain ⟨f, r, hfr⟩ := splitOnChar_shape ',' line
    simp only [parse_record, hfr, List.get?_cons_zero] at h
    split at h
    · simp at h
    · split at h
      · simp at h
      · simp at h
  · intro line f0 id h0 hid h1
    have hname : Option.filter (fun n => !n.isEmpty)
        ((splitOnChar ',' line).get? 1) = none := by
      rcases h1 with h1 | h1 <;>
        rw [List.get?_eq_getElem?] at h1 <;> simp [h1, Option.filter]
    simp only [parse_record, h0, hid, hname]
    decide

/-- Witness for C3 (amended): the blank id of `",Bob,"` hits the
`InvalidId` branch, and `"7,,"` with valid id and blank name hits the
`MissingField "name"` branch. -/
theorem C3_witness :
    parse_record (",Bob,".toList) = Except.error ParseError.InvalidId ∧
    parse_record ("7,,".toList) =
      Except.error (ParseError.MissingField ("name".toList)) :=
  ⟨C3_error_taxonomy.1 (",Bob,".toList) [] (by decide) (by decide),
    C3_error_taxonomy.2.2 ("7,,".toList) ['7'] 7 (by decide) (by decide)
      (Or.inr (by decide))⟩

/-- Claim C6: `search` returns exactly the records of the store whose name
contains the query as a case-insensitive substring; in particular the query
`"ali"` matches records named `"Alice"` and `"alicia"`. -/
theorem C6_search_spec :
    (∀ (rs : Records) (q : Str) (r : Record),
      r ∈ rs.search q ↔
        r ∈ rs.map Prod.snd ∧
          List.IsInfix (strLower q) (strLower r.name)) ∧
    ({ id := 1, name := "Alice".toList, email := none } : Record) ∈
      Records.search
        [(1, { id := 1, name := "Alice".toList, email := none }),
         (2, { id := 2, name := "alicia".toList, email := none }),
         (3, { id := 3, name := "Bob".toList, email := none })]
        ("ali".toList) ∧
    ({ id := 2, name := "alicia".toList, email := none } : Record) ∈
      Records.search
        [(1, { id := 1, name := "Alice".toList, email := none }),
         (2, { id := 2, name := "alicia".toList, email := none }),
         (3, { id := 3, name := "Bob".toList, email := none })]
        ("ali".toList) := by
  refine ⟨?_, by decide, by decide⟩
  intro rs q r
  rw [Records.search, List.mem_filter, containsSub_iff]

/-- Claim C7: `edit` is an unconditional upsert: afterwards the edited key
maps to exactly the new record (in particular a `None` email clears any
stored email), and every other key is unchanged. -/
theorem C7_edit_upsert :
    ∀ (rs : Records) (id : Int) (name : Str) (email : Option Str),
      hmLookup id (rs.edit id name email) =
        some { id := id, name := name, email := email } ∧
      ∀ k, k ≠ id → hmLookup k (rs.edit id name email) = hmLookup k rs := by
  intro rs id name email
  constructor
  · rw [Records.edit, hmLookup_hmInsert, if_pos rfl]
  · intro k hk
    rw [Records.edit, hmLookup_hmInsert, if_neg (fun h => hk h.symm)]

/-- Witness for C7: editing id 1 of a concrete store overwrites the name,
clears the previously present email, and leaves id 2 untouched. -/
theorem C7_witness :
    hmLookup 1
        (Records.edit
          [(1, { id := 1, name := "Old".toList, email := some ("o@x".toList) }),
           (2, { id := 2, name := "Keep".toList, email := none })]
          1 ("NewName".toList) none) =
      some { id := 1, name := "NewName".toList, email := none } ∧
    hmLookup 2
        (Records.edit
          [(1, { id := 1, name := "Old".toList, email := some ("o@x".toList) }),
           (2, { id := 2, name := "Keep".toList, email := none })]
          1 ("NewName".toList) none) =
      hmLookup 2
        [(1, { id := 1, name := "Old".toList, email := some ("o@x".toList) }),
         (2, { id := 2, name := "Keep".toList, email := none })] :=
  ⟨(C7_edit_upsert _ 1 ("NewName".toList) none).1,
    (C7_edit_upsert _ 1 ("NewName".toList) none).2 2 (by decide)⟩

/-- Claim C8: `parse_records` is total and degrades gracefully: for every
input and verbose flag it returns the store obtained by adding exactly the
records of the successfully parsed non-empty lines, in order, skipping each
malformed line and processing the rest. -/
theorem C8_parse_records_total (s : Str) (v : Bool) :
    (parse_records s v).1 =
      List.foldl Records.add Records.new (successfulRecords s) :=
  parse_records_fst s v

/-- Claim C10: the verbose flag influences only the diagnostics, never the
parsed store: `parse_records` returns the same store for `verbose = true`
and `verbose = false`. -/
theorem C10_verbose_noninterference (s : Str) :
    (parse_records s true).1 = (parse_records s false).1 := by
  rw [parse_records_fst, parse_records_fst]

/-- A wrapping `i64` operation whose mathematical result already lies in
the `i64` range returns it unchanged. -/
lemma wrapI64_eq_self {n : Int} (h1 : -(2 ^ 63) ≤ n) (h2 : n ≤ 2 ^ 63 - 1) :
    wrapI64 n = n := by
  unfold wrapI64
  omega

/-- Counterexample to claim C4 as stated: on the store whose single id is
`2^63 - 1` (a key the program can reach from a parsed CSV line), the `i64`
increment `id + 1` overflows — in release builds it wraps to `-2^63` — so
`next_id` does not return the maximum id plus 1. -/
theorem C4_counterexample :
    Records.next_id
        [((2 ^ 63 - 1 : Int),
          { id := 2 ^ 63 - 1, name := ['A'], email := none })] =
      -(2 ^ 63) ∧
    Records.next_id
        [((2 ^ 63 - 1 : Int),
          { id := 2 ^ 63 - 1, name := ['A'], email := none })] ≠
      (2 ^ 63 - 1) + 1 := by decide

/-- Claim C4, amended: `next_id` returns 1 on the empty store, and on a
non-empty store whose ids all lie in `[-2^63, 2^63 - 2]` — so that the
`i64` increment of the maximum cannot overflow — one more than the maximum
existing id (the predecessor of the result is an id of the store that
bounds every id); on the store with ids `{1, 3, 5}` it returns 6. -/
theorem C4_next_id_max :
    (∀ rs : Records, rs = [] → rs.next_id = 1) ∧
    (∀ rs : Records, rs ≠ [] →
      (∀ k ∈ rs.map Prod.fst, -(2 ^ 63) ≤ k ∧ k ≤ 2 ^ 63 - 2) →
      (rs.next_id - 1) ∈ rs.map Prod.fst ∧
        ∀ k ∈ rs.map Prod.fst, k ≤ rs.next_id - 1) ∧
    Records.next_id
      [(1, { id := 1, name := [], email := none }),
       (3, { id := 3, name := [], email := none }),
       (5, { id := 5, name := [], email := none })] = 6 := by
  refine ⟨?_, ?_, by decide⟩
  · intro rs h
    subst h
    rfl
  · intro rs hne hrange
    have htot : ∀ a b : Int,
        decide (a ≤ b) = true ∨ decide (b ≤ a) = true := by
      intro a b
      rcases le_total a b with h | h
      · exact Or.inl (decide_eq_true h)
      · exact Or.inr (decide_eq_true h)
    have htrans : ∀ a b c : Int, decide (a ≤ b) = true →
        decide (b ≤ c) = true → decide (a ≤ c) = true :=
      fun a b c h1 h2 => decide_eq_true
        (le_trans (of_decide_eq_true h1) (of_decide_eq_true h2))
    have hperm := sortLe_perm (fun a b : Int => decide (a ≤ b))
      (rs.map Prod.fst)
    have hsorted := sortLe_sorted (fun a b : Int => decide (a ≤ b))
      htot htrans (rs.map Prod.fst)
    have hids_ne :
        sortLe (fun a b : Int => decide (a ≤ b)) (rs.map Prod.fst) ≠ [] := by
      intro h0
      apply hne
      have hlen := hperm.length_eq
      rw [h0] at hlen
      have : rs.length = 0 := by simpa using hlen.symm
      exact List.length_eq_zero.mp this
    obtain ⟨m, hm⟩ : ∃ m,
        (sortLe (fun a b : Int => decide (a ≤ b))
          (rs.map Prod.fst)).getLast? = some m :=
      ⟨_, List.getLast?_eq_getLast_of_ne_nil hids_ne⟩
    have hmem : m ∈ rs.map Prod.fst := by
      refine hperm.mem_iff.mp ?_
      obtain ⟨hne2, heq⟩ :=
        List.mem_getLast?_eq_getLast (Option.mem_def.mpr hm)
      rw [heq]
      exact List.getLast_mem hne2
    have hmrange := hrange m hmem
    have hnext : rs.next_id = m + 1 := by
      simp only [Records.next_id]
      rw [hm]
      exact wrapI64_eq_self (by omega) (by omega)
    constructor
    · rw [hnext]
      simpa using hmem
    · intro k hk
      have hk' : k ∈ sortLe (fun a b : Int => decide (a ≤ b))
          (rs.map Prod.fst) := hperm.mem_iff.mpr hk
      have hb := pairwise_getLast _ hsorted m hm k hk'
      rw [hnext]
      rcases hb with hb | hb
      · have := of_decide_eq_true hb
        omega
      · omega

/-- Witness for C4 (amended) at the empty store and at the store with ids
`{1, 3, 5}`, all within the overflow-free range. -/
theorem C4_witness :
    Records.next_id [] = 1 ∧
    (Records.next_id
        [(1, { id := 1, name := [], email := none }),
         (3, { id := 3, name := [], email := none }),
         (5, { id := 5, name := [], email := none })] - 1) ∈
      List.map Prod.fst
        [((1 : Int), ({ id := 1, name := [], email := none } : Record)),
         (3, { id := 3, name := [], email := none }),
         (5, { id := 5, name := [], email := none })] :=
  ⟨C4_next_id_max.1 [] rfl,
    (C4_next_id_max.2.1
      [(1, { id := 1, name := [], email := none }),
       (3, { id := 3, name := [], email := none }),
       (5, { id := 5, name := [], email := none })] (by decide)
      (by decide)).1⟩

/-- Claim C5: saving writes the header `id,name,email`, then exactly one
line per record, comma-joined with absent email rendered empty, in the
order of `into_vec`; and `into_vec` returns all the store's records sorted
by ascending id. -/
theorem C5_save_format (rs : Records) :
    List.Perm rs.into_vec (rs.map Prod.snd) ∧
    rs.into_vec.Pairwise (fun a b => a.id ≤ b.id) ∧
    save_records rs =
      headerBody ++ '\n' ::
        (rs.into_vec.map (fun r =>
          intToStr r.id ++ (',' :: (r.name ++ (',' ::
            (r.email.getD [] ++ ['\n'])))))).flatten := by
  refine ⟨sortLe_perm _ _, ?_, ?_⟩
  · have hs := sortLe_sorted (fun a b : Record => decide (a.id ≤ b.id))
      (fun a b => by
        rcases le_total a.id b.id with h | h
        · exact Or.inl (decide_eq_true h)
        · exact Or.inr (decide_eq_true h))
      (fun a b c h1 h2 => decide_eq_true
        (le_trans (of_decide_eq_true h1) (of_decide_eq_true h2)))
      (rs.map Prod.snd)
    exact hs.imp (fun h => of_decide_eq_true h)
  · unfold save_records headerLine
    rw [List.append_assoc, List.singleton_append]
    refine congrArg (headerBody ++ '\n' :: ·) ?_
    refine congrArg List.flatten (List.map_congr_left ?_)
    intro r _
    simp [record_line, record_body, List.append_assoc]

/-! Reachability by the store operations, for the key-id invariant. -/

lemma coherent_hmErase {rs : Records} (h : ∀ p ∈ rs, p.2.id = p.1)
    (k : Int) : ∀ p ∈ hmErase k rs, p.2.id = p.1 :=
  fun p hp => h p (mem_hmErase hp)

lemma coherent_hmInsert {rs : Records} {k : Int} {v : Record}
    (hv : v.id = k) (h : ∀ p ∈ rs, p.2.id = p.1) :
    ∀ p ∈ hmInsert k v rs, p.2.id = p.1 := by
  intro p hp
  rcases List.mem_cons.mp hp with rfl | hp'
  · exact hv
  · exact h p (mem_hmErase hp')

lemma coherent_foldl_add (l : List Record) :
    ∀ r0 : Records, (∀ p ∈ r0, p.2.id = p.1) →
      ∀ p ∈ List.foldl Records.add r0 l, p.2.id = p.1 := by
  induction l with
  | nil => exact fun r0 h => h
  | cons x t ih =>
    intro r0 h
    rw [List.foldl_cons]
    exact ih _ (coherent_hmInsert rfl h)

/-- Claim C9: in every store reachable from the empty store by sequences of
`add`, `edit`, `remove`, and `parse_records`, every map key is mapped to a
record whose id field equals that key. -/
theorem C9_key_id_coherence (rs : Records) (h : Reachable rs) :
    ∀ p ∈ rs, p.2.id = p.1 := by
  induction h with
  | new =>
    intro p hp
    cases hp
  | add rs r _ ih => exact coherent_hmInsert rfl ih
  | edit rs id name email _ ih => exact coherent_hmInsert rfl ih
  | remove rs id _ ih => exact coherent_hmErase ih id
  | parse s v =>
    rw [parse_records_fst]
    exact coherent_foldl_add _ _ (fun p hp => absurd hp (List.not_mem_nil p))

/-- Witness for C9 on the reachable one-record store obtained by adding a
record to the empty store. -/
theorem C9_witness :
    ({ id := 7, name := "Ann".toList, email := none } : Record).id =
      (7 : Int) :=
  C9_key_id_coherence
    (Records.add Records.new { id := 7, name := "Ann".toList, email := none })
    (Reachable.add _ _ Reachable.new)
    (7, { id := 7, name := "Ann".toList, email := none }) (by decide)

/-- Counterexample to claim C1 as stated: this store has non-empty,
comma-free fields, yet saving then re-parsing changes its record — the
embedded newline splits the saved line in two, so key 1 maps to a
different record afterwards. -/
theorem C1_counterexample :
    (∀ p ∈ C1badStore, p.2.name ≠ [] ∧ ',' ∉ p.2.name ∧
      ',' ∉ p.2.email.getD []) ∧
    hmLookup 1 (parse_records (save_records C1badStore) false).1 ≠
      hmLookup 1 C1badStore := by decide

/-- Claim C1, amended: for every well-formed store (distinct keys, key
equal to record id — the `HashMap` invariants) whose records have
non-empty names, whose names and emails contain no commas and no newlines,
and whose present emails are non-empty, saving with `save_records` and
re-parsing with `parse_records` yields a store with exactly the same
records: lookup at every key is unchanged. -/
theorem C1_roundtrip (rs : Records) (hwf : rs.wf)
    (hgood : ∀ p ∈ rs, goodRecord p.2) (v : Bool) (k : Int) :
    hmLookup k (parse_records (save_records rs) v).1 = hmLookup k rs :=
  roundtrip_lookup rs hwf hgood v k

/-- Witness for C1 (amended) at a concrete two-record store. -/
theorem C1_witness :
    C1goodStore.wf ∧ (∀ p ∈ C1goodStore, goodRecord p.2) ∧
    hmLookup 1 (parse_records (save_records C1goodStore) false).1 =
      hmLookup 1 C1goodStore :=
  ⟨by decide, by decide,
    C1_roundtrip C1goodStore (by decide) (by decide) false 1⟩
